import Mathlib

/-!
# Verification of the tileserver-gl core (WifiDB fork)

Shallow embedding, in Lean 4, of the core algorithms of the repository:

* `src/vtpbf.js` — the hand-rolled Mapbox Vector Tile encoder
  (zigzag encoding, geometry command stream, key/value interning,
  layer/tile serialization as a stream of protobuf write operations);
* `src/pmtiles_adapter.js` (and the sibling revision of the same file) —
  torrent-backed byte-range reconstruction and metadata normalization;
* `src/terrain.js` — the 3×3 wrap-around height grid, the contour
  coordinate projection and the terrain-RGB height decoding.

JavaScript numbers are modelled as `Int`/`ℚ`; the 32-bit coercions that
JavaScript's bitwise operators perform (`ToInt32`) are made explicit with
arithmetic modulo `2^32` (written as the numeral `4294967296`; likewise
`2147483648 = 2^31`).  Buffers and arrays are `List`s; exceptions are
`Except`/`Option` values.
-/

namespace TileserverGL

/-! ## 32-bit integer model

JavaScript bitwise operators coerce their operands with `ToInt32`
(two's-complement wrap into `[-2^31, 2^31)`) and operate on the 32-bit
pattern.  `u32 z` is the unsigned 32-bit pattern of `z`; `toS32 z` is the
signed 32-bit value congruent to `z` modulo `2^32`. -/

/-- Unsigned 32-bit pattern of an integer (the value modulo `2^32`). -/
def u32 (z : Int) : Nat := (z % 4294967296).toNat

/-- `ToInt32`: the signed 32-bit value congruent to `z` modulo `2^32`. -/
def toS32 (z : Int) : Int := (z + 2147483648) % 4294967296 - 2147483648

/-- JavaScript `a ^ b`: XOR of the 32-bit patterns, read back as signed. -/
def xor32 (a b : Int) : Int := toS32 ((u32 a ^^^ u32 b : Nat) : Int)

/-- `zigzag` from `src/vtpbf.js`: `(num << 1) ^ (num >> 31)`.
`num << 1` is `ToInt32(num) * 2` wrapped back to 32 bits; `num >> 31` is the
arithmetic right shift of the 32-bit value by 31, i.e. `-1` for negative
values and `0` otherwise. -/
def zigzag (num : Int) : Int :=
  xor32 (toS32 (toS32 num * 2)) (if toS32 num < 0 then -1 else 0)

/-- Modelled from the spec: the repository contains no decoder (decoding is
delegated to an external MVT reader), so `unzigzag` is the standard zigzag
decoder that the spec's invertibility property refers to:
`(v >>> 1) ^ -(v & 1)` — the unsigned 32-bit pattern shifted right once,
XORed with the negation of its lowest bit. -/
def unzigzag (v : Int) : Int :=
  xor32 ((u32 v / 2 : Nat) : Int) (-((u32 v % 2 : Nat) : Int))

theorem u32_cast (z : Int) : ((u32 z : Nat) : Int) = z % 4294967296 := by
  have h0 : 0 ≤ z % 4294967296 := Int.emod_nonneg z (by norm_num)
  simp [u32, Int.toNat_of_nonneg h0]

theorem u32_lt (z : Int) : u32 z < 4294967296 := by
  have h1 : z % 4294967296 < 4294967296 := Int.emod_lt_of_pos z (by norm_num)
  have h2 := u32_cast z
  omega

theorem u32_congr {a b : Int} (h : a % 4294967296 = b % 4294967296) :
    u32 a = u32 b := by
  unfold u32; rw [h]

theorem toS32_congr {a b : Int} (h : a % 4294967296 = b % 4294967296) :
    toS32 a = toS32 b := by
  unfold toS32
  rw [Int.add_emod, h, ← Int.add_emod]

theorem toS32_emod (z : Int) : toS32 z % 4294967296 = z % 4294967296 := by
  unfold toS32
  omega

theorem u32_toS32 (z : Int) : u32 (toS32 z) = u32 z :=
  u32_congr (toS32_emod z)

theorem toS32_eq_self {z : Int} (h0 : -2147483648 ≤ z) (h1 : z < 2147483648) :
    toS32 z = z := by
  unfold toS32
  omega

theorem u32_ofNat {m : Nat} (h : m < 4294967296) : u32 ((m : Nat) : Int) = m := by
  have := u32_cast ((m : Nat) : Int)
  have h2 : ((m : Nat) : Int) % 4294967296 = ((m : Nat) : Int) := by
    apply Int.emod_eq_of_lt <;> omega
  omega

theorem u32_nonneg_lt {z : Int} (h0 : 0 ≤ z) (h1 : z < 4294967296) :
    (u32 z : Int) = z := by
  rw [u32_cast, Int.emod_eq_of_lt h0 h1]

theorem u32_neg_range {z : Int} (h0 : -4294967296 ≤ z) (h1 : z < 0) :
    (u32 z : Int) = z + 4294967296 := by
  rw [u32_cast]
  have : z % 4294967296 = (z + 4294967296) % 4294967296 := by omega
  rw [this, Int.emod_eq_of_lt (by omega) (by omega)]

/-- XOR with an all-ones mask is complement: for `a < 2^n`,
`a ^^^ (2^n - 1) = 2^n - 1 - a`. -/
theorem xor_two_pow_sub_one {a n : Nat} (h : a < 2 ^ n) :
    a ^^^ (2 ^ n - 1) = 2 ^ n - 1 - a := by
  apply Nat.eq_of_testBit_eq
  intro i
  have hsub : 2 ^ n - 1 - a = 2 ^ n - (a + 1) := by omega
  rw [Nat.testBit_xor, Nat.testBit_two_pow_sub_one, hsub,
    Nat.testBit_two_pow_sub_succ h]
  by_cases hi : i < n
  · simp [hi]
  · have hbit : a.testBit i = false :=
      Nat.testBit_lt_two_pow (lt_of_lt_of_le h (Nat.pow_le_pow_right (by norm_num) (by omega)))
    simp [hi, hbit]

theorem xor_ones32 {a : Nat} (h : a < 4294967296) :
    a ^^^ 4294967295 = 4294967295 - a := by
  have := xor_two_pow_sub_one (n := 32) (a := a) (h.trans_eq (by norm_num))
  norm_num at this
  exact this

/-- C5 — **Zigzag invertibility**: for every 32-bit signed integer `n`,
decoding the zigzag encoding of `n` (with `zigzag` exactly as in
`src/vtpbf.js` and the standard decoder `unzigzag`) recovers `n`. -/
theorem unzigzag_zigzag (n : Int) (h0 : -2147483648 ≤ n) (h1 : n < 2147483648) :
    unzigzag (zigzag n) = n := by
  have hn : toS32 n = n := toS32_eq_self h0 h1
  have hu0 : u32 0 = 0 := by unfold u32; simp
  rcases le_or_lt 0 n with hpos | hneg
  · -- nonnegative case: the pattern of `zigzag n` is `2n`, an even value
    have h2n0 : (0 : Int) ≤ n * 2 := by omega
    have h2n1 : n * 2 < 4294967296 := by omega
    have hu2n : (u32 (n * 2) : Int) = n * 2 := u32_nonneg_lt h2n0 h2n1
    have hz : zigzag n = toS32 ((u32 (n * 2) : Nat) : Int) := by
      unfold zigzag
      rw [hn, if_neg (by omega : ¬ n < 0)]
      unfold xor32
      rw [u32_toS32, hu0, Nat.xor_zero]
    have huv : u32 (zigzag n) = u32 (n * 2) := by
      rw [hz, u32_toS32, u32_ofNat (u32_lt _)]
    have huval : (u32 (zigzag n) : Int) = n * 2 := by rw [huv, hu2n]
    unfold unzigzag
    have hmodn : u32 (zigzag n) % 2 = 0 := by omega
    have hdivn : (u32 (zigzag n) / 2 : Nat) = n.toNat := by omega
    rw [hdivn, hmodn]
    unfold xor32
    simp only [Nat.cast_zero, neg_zero]
    rw [hu0, Nat.xor_zero, u32_ofNat (by omega)]
    have hcast : ((n.toNat : Nat) : Int) = n := by omega
    rw [hcast, hn]
  · -- negative case: the pattern of `zigzag n` is `-2n - 1`, an odd value
    have h2n0 : -4294967296 ≤ n * 2 := by omega
    have h2n1 : n * 2 < 0 := by omega
    have hu2n : (u32 (n * 2) : Int) = n * 2 + 4294967296 := u32_neg_range h2n0 h2n1
    have hum1 : (u32 (-1) : Int) = 4294967295 := u32_neg_range (by norm_num) (by norm_num)
    have hz : zigzag n = toS32 ((u32 (n * 2) ^^^ u32 (-1) : Nat) : Int) := by
      unfold zigzag
      rw [hn, if_pos hneg]
      unfold xor32
      rw [u32_toS32]
    -- compute the XOR: complement of the even pattern `2n + 2^32`
    have hxor : u32 (n * 2) ^^^ u32 (-1) = (-(n * 2) - 1).toNat := by
      have hlt : u32 (n * 2) < 4294967296 := u32_lt _
      have hum1n : u32 (-1) = 4294967295 := by omega
      rw [hum1n, xor_ones32 hlt]
      omega
    have huv : u32 (zigzag n) = (-(n * 2) - 1).toNat := by
      rw [hz, hxor, u32_toS32, u32_ofNat (by omega)]
    unfold unzigzag
    have hdivn : u32 (zigzag n) / 2 = (-n - 1).toNat := by omega
    have hmodn : u32 (zigzag n) % 2 = 1 := by omega
    rw [hdivn, hmodn]
    unfold xor32
    have humn : u32 (((-n - 1).toNat : Nat) : Int) = (-n - 1).toNat :=
      u32_ofNat (by omega)
    have hum1n : u32 (-((1 : Nat) : Int)) = 4294967295 := by
      have h : (-((1 : Nat) : Int)) = -1 := by norm_num
      rw [h]; omega
    rw [humn, hum1n, xor_ones32 (by omega)]
    have hval : (4294967295 - (-n - 1).toNat : Nat) = (n + 4294967296).toNat := by
      omega
    rw [hval]
    have hcast : (((n + 4294967296).toNat : Nat) : Int) = n + 4294967296 := by omega
    rw [hcast]
    unfold toS32
    omega

/-- Witness for `unzigzag_zigzag` at `n = -123`. -/
theorem unzigzag_zigzag_witness :
    unzigzag (zigzag (-123)) = -123 :=
  unzigzag_zigzag (-123) (by norm_num) (by norm_num)


/-! ## `src/vtpbf.js` — the Mapbox Vector Tile encoder

The encoder writes through a `Pbf` instance.  We model the output as the
sequence of write operations performed on it (`PbfOp`); the byte buffer
`pbf.finish()` returns is a pure function of that sequence, so determinism
and structural statements about the output transfer to the bytes. -/

/-- A property value as the encoder distinguishes them (`typeof value`):
string, number (JS doubles, modelled as `ℚ`), or boolean. -/
inductive PropValue where
  | str (s : String)
  | num (q : ℚ)
  | bool (b : Bool)
deriving DecidableEq

/-- `typeof value` for a property value. -/
def typeName : PropValue → String
  | .str _ => "string"
  | .num _ => "number"
  | .bool _ => "boolean"

/-- The value-interning cache key.  The source uses the string
`type + ":" + value`; since `typeof` names contain no colon and JavaScript
stringification is injective on each primitive type, that string carries
exactly the information of the pair (type name, value). -/
def valueKey (v : PropValue) : String × PropValue := (typeName v, v)

/-- A feature as consumed by the encoder: `feature.type` (a `GeomType`
number), `feature.properties` (in iteration order; `none` models a JS
`null` value, which the encoder skips), and `feature.geometry` as a list
of rings of coordinate pairs.  The source flattens each ring with
`ring.flat(Infinity)` and reads consecutive pairs, so a ring is modelled
directly as its list of pairs; coordinates are integers (MVT geometry is
integral and the claims only exercise integral inputs). -/
structure Feature where
  ftype : Nat
  properties : List (String × Option PropValue)
  geometry : List (List (Int × Int))
deriving DecidableEq

/-- `command` from `src/vtpbf.js`: `(length << 3) + (cmd & 0x7)` under
JavaScript 32-bit operator semantics. -/
def command (cmd length : Int) : Int :=
  toS32 (toS32 length * 8) + ((u32 cmd % 8 : Nat) : Int)

/-- The point loop of `writeGeometry` for one ring: for each index
`i < lineCount` it emits the "lineto" command just before the second point
(`i == 1`, non-point types), then the zigzag-encoded deltas against the
running position; returns the emitted varint values and the final running
position. -/
def writeRingPoints (ftype : Nat) (lineCount : Nat) :
    List (Int × Int) → Nat → Int → Int → List Int × Int × Int
  | [], _, x, y => ([], x, y)
  | (px, py) :: rest, i, x, y =>
    if i < lineCount then
      let r := writeRingPoints ftype lineCount rest (i + 1) px py
      ((if i = 1 ∧ ftype ≠ 1 then [command 2 ((lineCount : Int) - 1)] else []) ++
        zigzag (px - x) :: zigzag (py - y) :: r.1, r.2)
    else ([], x, y)

/-- `writeGeometry` from `src/vtpbf.js`, as the list of values passed to
`pbf.writeVarint`: per ring, a "moveto" command (count = number of points
for point features, else 1), the point loop, and for polygons a final
"closepath" command.  The running position persists across rings. -/
def writeGeometryRings (ftype : Nat) : List (List (Int × Int)) → Int → Int → List Int
  | [], _, _ => []
  | ring :: rest, x, y =>
    let count : Nat := if ftype = 1 then ring.length else 1
    let lineCount : Nat := if ftype = 3 then ring.length - 1 else ring.length
    let r := writeRingPoints ftype lineCount ring 0 x y
    (command 1 (count : Int) :: r.1) ++
      (if ftype = 3 then [command 7 1] else []) ++
      writeGeometryRings ftype rest r.2.1 r.2.2

/-- The geometry command stream of a feature (starting position `(0,0)`). -/
def writeGeometryStream (f : Feature) : List Int :=
  writeGeometryRings f.ftype f.geometry 0 0

/-- Per-layer interning state — `keys`, `values`, `keycache`, `valuecache`
of the `context` object in `writeLayer`.  The JS object caches are
association lists from cache key to the index assigned at first interning. -/
structure Ctx where
  keys : List String
  values : List PropValue
  keycache : List (String × Nat)
  valuecache : List ((String × PropValue) × Nat)

/-- The freshly constructed context of `writeLayer`. -/
def Ctx.empty : Ctx := ⟨[], [], [], []⟩

/-- First-match lookup in an association list (a JS object property read). -/
def alookup {α : Type} [DecidableEq α] : List (α × Nat) → α → Option Nat
  | [], _ => none
  | (a, i) :: rest, k => if a = k then some i else alookup rest k

/-- Key interning in `writeProperties`: a cache hit returns the cached
index, otherwise the key is pushed onto `keys` and `keys.length - 1` is
cached for it. -/
def internKey (c : Ctx) (k : String) : Ctx × Nat :=
  match alookup c.keycache k with
  | some i => (c, i)
  | none =>
    ({ c with keys := c.keys ++ [k], keycache := (k, c.keys.length) :: c.keycache },
      c.keys.length)

/-- Value interning in `writeProperties`, keyed by `valueKey`. -/
def internValue (c : Ctx) (v : PropValue) : Ctx × Nat :=
  match alookup c.valuecache (valueKey v) with
  | some i => (c, i)
  | none =>
    ({ c with
        values := c.values ++ [v],
        valuecache := (valueKey v, c.values.length) :: c.valuecache },
      c.values.length)

/-- One property written by `writeProperties`: the key/value pair together
with the interned indices the source emits as the two varints. -/
abbrev TagRec : Type := (String × PropValue) × Nat × Nat

/-- The property loop of `writeProperties`: properties with a null value
are skipped (not encoded, not interned); otherwise key and value are
interned and the index pair emitted. -/
def writeProps (c : Ctx) : List (String × Option PropValue) → Ctx × List TagRec
  | [] => (c, [])
  | (_, none) :: rest => writeProps c rest
  | (k, some v) :: rest =>
    let rk := internKey c k
    let rv := internValue rk.1 v
    let r := writeProps rv.1 rest
    (r.1, ((k, v), rk.2, rv.2) :: r.2)

/-- The feature loop of `writeLayer`: a single context is threaded through
all features of the layer; returns the final context and, per feature, its
emitted tag records. -/
def writeFeatures (c : Ctx) : List Feature → Ctx × List (Feature × List TagRec)
  | [] => (c, [])
  | f :: rest =>
    let r := writeProps c f.properties
    let r2 := writeFeatures r.1 rest
    (r2.1, (f, r.2) :: r2.2)

/-- Interning result of a whole layer: the final context and the tag
records of all features, flattened in emission order. -/
def runLayer (fs : List Feature) : Ctx × List TagRec :=
  let r := writeFeatures Ctx.empty fs
  (r.1, (r.2.map Prod.snd).flatten)

/-- A write operation on the `Pbf` instance.  `msgStart`/`msgEnd` delimit a
`writeMessage` (the length prefix the real `Pbf` computes is a function of
the delimited contents). -/
inductive PbfOp where
  | varint (v : Int)
  | varintField (tag : Nat) (v : Int)
  | svarintField (tag : Nat) (v : Int)
  | stringField (tag : Nat) (s : String)
  | boolField (tag : Nat) (b : Bool)
  | doubleField (tag : Nat) (q : ℚ)
  | msgStart (tag : Nat)
  | msgEnd
deriving DecidableEq

/-- `writeValue` from `src/vtpbf.js`: strings to field 1, booleans to
field 7, fractional numbers to double field 3, negative integers to
svarint field 6, other numbers to varint field 5. -/
def writeValueOps (v : PropValue) : List PbfOp :=
  match v with
  | .str s => [.stringField 1 s]
  | .bool b => [.boolField 7 b]
  | .num q =>
    if q.den ≠ 1 then [.doubleField 3 q]
    else if q < 0 then [.svarintField 6 q.num]
    else [.varintField 5 q.num]

/-- `writeFeature`: the properties message (field 2, alternating key/value
index varints), the geometry type (field 3) and the geometry message
(field 4). -/
def writeFeatureOps (f : Feature) (tags : List TagRec) : List PbfOp :=
  (PbfOp.msgStart 2 ::
      tags.flatMap (fun t => [PbfOp.varint (t.2.1 : Int), PbfOp.varint (t.2.2 : Int)]) ++
      [PbfOp.msgEnd]) ++
  [PbfOp.varintField 3 (f.ftype : Int)] ++
  (PbfOp.msgStart 4 :: (writeGeometryStream f).map PbfOp.varint ++ [PbfOp.msgEnd])

/-- `layer.extent || 4096`: the extent written for the layer (a missing or
zero extent is falsy). -/
def extentOr4096 : Option Nat → Nat
  | some n => if n = 0 then 4096 else n
  | none => 4096

/-- `writeLayer`: version field, name, extent, the feature messages (all
sharing one interning context), then the interned key strings (field 3)
and value messages (field 4).  `layer.id || ''` equals the id for the
string ids a tile's layer map provides. -/
def writeLayerOps (id : String) (extent : Option Nat) (fs : List Feature) : List PbfOp :=
  let r := writeFeatures Ctx.empty fs
  [PbfOp.varintField 15 2, PbfOp.stringField 1 id,
    PbfOp.varintField 5 ((extentOr4096 extent : Nat) : Int)] ++
  r.2.flatMap (fun p => PbfOp.msgStart 2 :: writeFeatureOps p.1 p.2 ++ [PbfOp.msgEnd]) ++
  r.1.keys.map (PbfOp.stringField 3) ++
  r.1.values.flatMap (fun v => PbfOp.msgStart 4 :: writeValueOps v ++ [PbfOp.msgEnd])

/-- A layer value of `tile.layers`: its extent (absent or a number; `0` is
falsy exactly like an absent one) and its features. -/
structure LayerData where
  extent : Option Nat
  features : List Feature

/-- A tile: `tile.layers` as an association list in the object's iteration
order, and the tile-level default extent. -/
structure Tile where
  layers : List (String × LayerData)
  extent : Option Nat

/-- JS truthiness of `layer.extent`. -/
def truthyExtent : Option Nat → Bool
  | some n => n ≠ 0
  | none => false

/-- The in-place update `if (!layer.extent) layer.extent = tile.extent`
performed by `encodeVectorTile` on each layer of its input. -/
def updLayer (tileExtent : Option Nat) (l : LayerData) : LayerData :=
  if truthyExtent l.extent then l else { l with extent := tileExtent }

/-- `encodeVectorTile` from `src/vtpbf.js`: one layer message (field 3)
per layer.  Because the extent default is assigned onto the input tile's
layer objects, the function returns the op stream together with the tile
as it is left after the call. -/
def encodeVectorTile (t : Tile) : List PbfOp × Tile :=
  let ops := t.layers.flatMap fun p =>
    PbfOp.msgStart 3 ::
      writeLayerOps p.1 (updLayer t.extent p.2).extent (updLayer t.extent p.2).features ++
      [PbfOp.msgEnd]
  (ops, { t with layers := t.layers.map fun p => (p.1, updLayer t.extent p.2) })


/-! ## C2 — polygon geometry command stream -/

/-- C2, counterexample — on the claim's input, a single-ring polygon whose
four points are listed without the closing point, the encoder does *not*
emit a "lineto" with count 3 (`command 2 3 = 26`): the emitted stream is
`[moveto(1), Δ(0,0), lineto(2), Δ(10,0), Δ(10,10), closepath]`, which
contains no value 26 at all — the last listed point `(0,10)` is dropped. -/
theorem polygon_closepath_counterexample :
    writeGeometryStream ⟨3, [], [[(0, 0), (10, 0), (10, 10), (0, 10)]]⟩ =
      [9, 0, 0, 18, 20, 0, 0, 20, 15] ∧
    command 2 3 = 26 ∧
    (26 : Int) ∉ writeGeometryStream ⟨3, [], [[(0, 0), (10, 0), (10, 10), (0, 10)]]⟩ := by
  refine ⟨by decide, by decide, by decide⟩

/-- C2, amended — the encoder assumes a polygon ring lists its closing
point explicitly (as GeoJSON rings do) and drops the last listed point.
On the claim's input (closing point not listed) it emits exactly one
"moveto" (cmd 1, count 1), one "lineto" (cmd 2) with count **2** covering
only the second and third points, and one "closepath" (cmd 7, count 1);
the claimed stream — lineto count 3 covering all listed points but the
first — is produced exactly when the ring lists the closing point
explicitly. -/
theorem polygon_closepath_amended :
    writeGeometryStream ⟨3, [], [[(0, 0), (10, 0), (10, 10), (0, 10)]]⟩ =
      [command 1 1, zigzag 0, zigzag 0,
        command 2 2, zigzag 10, zigzag 0, zigzag 0, zigzag 10,
        command 7 1] ∧
    writeGeometryStream ⟨3, [], [[(0, 0), (10, 0), (10, 10), (0, 10), (0, 0)]]⟩ =
      [command 1 1, zigzag 0, zigzag 0,
        command 2 3, zigzag 10, zigzag 0, zigzag 0, zigzag 10, zigzag (-10), zigzag 0,
        command 7 1] := by
  refine ⟨by decide, by decide⟩

/-! ## C6 — encode determinism -/

/-- The extent-default assignment is idempotent: re-encoding the tile the
first call mutated assigns the same extent again (or leaves it alone). -/
theorem updLayer_idem (e : Option Nat) (l : LayerData) :
    updLayer e (updLayer e l) = updLayer e l := by
  unfold updLayer
  by_cases h : truthyExtent l.extent
  · simp [h]
  · by_cases h2 : truthyExtent e <;> simp [h, h2]

/-- C6 — **MVT encode determinism**: encoding equal `VectorTile` values
yields identical output streams (hence byte-identical buffers), and this
holds across two successive runs: re-encoding the tile object as the first
call leaves it (with extent defaults assigned in place) again yields the
same stream. -/
theorem encodeVectorTile_deterministic (t t2 : Tile) (h : t = t2) :
    (encodeVectorTile t).1 = (encodeVectorTile t2).1 ∧
    (encodeVectorTile ((encodeVectorTile t).2)).1 = (encodeVectorTile t2).1 := by
  subst h
  refine ⟨rfl, ?_⟩
  simp only [encodeVectorTile, List.flatMap_map]
  congr 1
  funext p
  simp [Function.comp, updLayer_idem]

/-- A concrete tile for the determinism witness: one layer without its own
extent (so the first run mutates it), one feature with a property. -/
def demoTile : Tile :=
  ⟨[("contour", ⟨none, [⟨3, [("elevation", some (.num 100))], [[(0, 0), (1, 0), (1, 1), (0, 0)]]⟩]⟩)],
    some 4096⟩

/-- Witness for `encodeVectorTile_deterministic` at `demoTile`. -/
theorem encodeVectorTile_deterministic_witness :
    (encodeVectorTile demoTile).1 = (encodeVectorTile demoTile).1 ∧
    (encodeVectorTile ((encodeVectorTile demoTile).2)).1 = (encodeVectorTile demoTile).1 :=
  encodeVectorTile_deterministic demoTile demoTile rfl


/-! ## C4 — key/value interning

The interning invariant links the caches to the tables they index: cached
indices point at the right table entries, every table entry is cached, and
`keys` never acquires a duplicate (a key is pushed only on a cache miss). -/

/-- Interning invariant for a layer context. -/
def Ctx.Inv (c : Ctx) : Prop :=
  c.keys.Nodup ∧
  (∀ k i, alookup c.keycache k = some i → c.keys[i]? = some k) ∧
  (∀ k, k ∈ c.keys → ∃ i, alookup c.keycache k = some i) ∧
  (∀ p i, alookup c.valuecache p = some i → c.values[i]? = some p.2 ∧ p = valueKey p.2)

theorem inv_empty : Ctx.empty.Inv := by
  refine ⟨List.nodup_nil, ?_, ?_, ?_⟩
  · intro k i h
    simp [Ctx.empty, alookup] at h
  · intro k h
    simp [Ctx.empty] at h
  · intro p i h
    simp [Ctx.empty, alookup] at h

theorem getElem?_append_some {α : Type} {l l2 : List α} {i : Nat} {a : α}
    (h : l[i]? = some a) : (l ++ l2)[i]? = some a := by
  have hi : i < l.length := by
    rcases List.getElem?_eq_some_iff.mp h with ⟨hlt, _⟩
    exact hlt
  rw [List.getElem?_append_left hi]
  exact h

theorem alookup_internKey_self (c : Ctx) (k : String) :
    alookup (internKey c k).1.keycache k = some (internKey c k).2 := by
  unfold internKey
  cases h : alookup c.keycache k with
  | some i => simp [h]
  | none => simp [h, alookup]

theorem alookup_internKey_mono {c : Ctx} {k2 : String} {i : Nat} (k : String)
    (h : alookup c.keycache k2 = some i) :
    alookup (internKey c k).1.keycache k2 = some i := by
  unfold internKey
  cases hl : alookup c.keycache k with
  | some j => simpa [hl] using h
  | none =>
    have hne : ¬ k = k2 := by
      intro he
      rw [he, h] at hl
      cases hl
    simpa [hl, alookup, hne] using h

theorem internKey_valuecache (c : Ctx) (k : String) :
    (internKey c k).1.valuecache = c.valuecache := by
  unfold internKey
  cases h : alookup c.keycache k <;> simp [h]

theorem internKey_values (c : Ctx) (k : String) :
    (internKey c k).1.values = c.values := by
  unfold internKey
  cases h : alookup c.keycache k <;> simp [h]

theorem alookup_internValue_self (c : Ctx) (v : PropValue) :
    alookup (internValue c v).1.valuecache (valueKey v) = some (internValue c v).2 := by
  unfold internValue
  cases h : alookup c.valuecache (valueKey v) with
  | some i => simp [h]
  | none => simp [h, alookup]

theorem alookup_internValue_mono {c : Ctx} {p : String × PropValue} {i : Nat} (v : PropValue)
    (h : alookup c.valuecache p = some i) :
    alookup (internValue c v).1.valuecache p = some i := by
  unfold internValue
  cases hl : alookup c.valuecache (valueKey v) with
  | some j => simpa [hl] using h
  | none =>
    have hne : ¬ valueKey v = p := by
      intro he
      rw [he, h] at hl
      cases hl
    simpa [hl, alookup, hne] using h

theorem internValue_keycache (c : Ctx) (v : PropValue) :
    (internValue c v).1.keycache = c.keycache := by
  unfold internValue
  cases h : alookup c.valuecache (valueKey v) <;> simp [h]

theorem internValue_keys (c : Ctx) (v : PropValue) :
    (internValue c v).1.keys = c.keys := by
  unfold internValue
  cases h : alookup c.valuecache (valueKey v) <;> simp [h]

theorem internKey_inv {c : Ctx} (hc : c.Inv) (k : String) : (internKey c k).1.Inv := by
  obtain ⟨hnd, hks, hkc, hvs⟩ := hc
  unfold internKey
  cases hl : alookup c.keycache k with
  | some i => simpa using ⟨hnd, hks, hkc, hvs⟩
  | none =>
    have hkmem : k ∉ c.keys := by
      intro hmem
      rcases hkc k hmem with ⟨i, hi⟩
      rw [hi] at hl
      cases hl
    refine ⟨?_, ?_, ?_, ?_⟩
    · simpa [List.nodup_append] using ⟨hnd, hkmem⟩
    · intro k2 i h2
      simp only [alookup] at h2
      by_cases he : k = k2
      · subst he
        simp at h2
        subst h2
        exact List.getElem?_concat_length c.keys k
      · rw [if_neg he] at h2
        exact getElem?_append_some (hks k2 i h2)
    · intro k2 hmem
      rcases List.mem_append.mp hmem with hmem | hmem
      · rcases hkc k2 hmem with ⟨i, hi⟩
        refine ⟨i, ?_⟩
        simp only [alookup]
        have hne : ¬ k = k2 := by
          intro he
          subst he
          exact hkmem hmem
        rw [if_neg hne]
        exact hi
      · have he : k2 = k := by simpa using hmem
        subst he
        exact ⟨c.keys.length, by simp [alookup]⟩
    · intro p i h2
      exact hvs p i h2

theorem internValue_inv {c : Ctx} (hc : c.Inv) (v : PropValue) : (internValue c v).1.Inv := by
  obtain ⟨hnd, hks, hkc, hvs⟩ := hc
  unfold internValue
  cases hl : alookup c.valuecache (valueKey v) with
  | some i => simpa using ⟨hnd, hks, hkc, hvs⟩
  | none =>
    refine ⟨hnd, hks, hkc, ?_⟩
    intro p i h2
    simp only [alookup] at h2
    by_cases he : valueKey v = p
    · subst he
      simp at h2
      subst h2
      exact ⟨List.getElem?_concat_length c.values v, rfl⟩
    · rw [if_neg he] at h2
      rcases hvs p i h2 with ⟨hget, hform⟩
      exact ⟨getElem?_append_some hget, hform⟩


theorem writeProps_keycache_mono {c : Ctx} {k : String} {i : Nat}
    (props : List (String × Option PropValue))
    (h : alookup c.keycache k = some i) :
    alookup (writeProps c props).1.keycache k = some i := by
  induction props generalizing c with
  | nil => simpa [writeProps] using h
  | cons p rest ih =>
    rcases p with ⟨k2, vo⟩
    cases vo with
    | none => simpa [writeProps] using ih h
    | some v =>
      simp only [writeProps]
      apply ih
      rw [internValue_keycache]
      exact alookup_internKey_mono k2 h

theorem writeProps_valuecache_mono {c : Ctx} {p : String × PropValue} {i : Nat}
    (props : List (String × Option PropValue))
    (h : alookup c.valuecache p = some i) :
    alookup (writeProps c props).1.valuecache p = some i := by
  induction props generalizing c with
  | nil => simpa [writeProps] using h
  | cons pr rest ih =>
    rcases pr with ⟨k2, vo⟩
    cases vo with
    | none => simpa [writeProps] using ih h
    | some v =>
      simp only [writeProps]
      apply ih
      apply alookup_internValue_mono
      rw [internKey_valuecache]
      exact h

theorem writeProps_inv {c : Ctx} (hc : c.Inv) (props : List (String × Option PropValue)) :
    (writeProps c props).1.Inv := by
  induction props generalizing c with
  | nil => simpa [writeProps] using hc
  | cons p rest ih =>
    rcases p with ⟨k2, vo⟩
    cases vo with
    | none => simpa [writeProps] using ih hc
    | some v =>
      simp only [writeProps]
      exact ih (internValue_inv (internKey_inv hc k2) v)

theorem writeProps_tags {c : Ctx} (props : List (String × Option PropValue)) :
    ∀ t ∈ (writeProps c props).2,
      alookup (writeProps c props).1.keycache t.1.1 = some t.2.1 ∧
      alookup (writeProps c props).1.valuecache (valueKey t.1.2) = some t.2.2 := by
  induction props generalizing c with
  | nil => simp [writeProps]
  | cons p rest ih =>
    rcases p with ⟨k2, vo⟩
    cases vo with
    | none => simpa [writeProps] using ih (c := c)
    | some v =>
      intro t ht
      simp only [writeProps, List.mem_cons] at ht
      rcases ht with rfl | ht
      · constructor
        · simp only [writeProps]
          apply writeProps_keycache_mono
          rw [internValue_keycache]
          exact alookup_internKey_self c k2
        · simp only [writeProps]
          apply writeProps_valuecache_mono
          exact alookup_internValue_self (internKey c k2).1 v
      · simpa [writeProps] using ih t ht

theorem writeFeatures_keycache_mono {c : Ctx} {k : String} {i : Nat}
    (fs : List Feature) (h : alookup c.keycache k = some i) :
    alookup (writeFeatures c fs).1.keycache k = some i := by
  induction fs generalizing c with
  | nil => simpa [writeFeatures] using h
  | cons f rest ih =>
    simp only [writeFeatures]
    exact ih (writeProps_keycache_mono f.properties h)

theorem writeFeatures_valuecache_mono {c : Ctx} {p : String × PropValue} {i : Nat}
    (fs : List Feature) (h : alookup c.valuecache p = some i) :
    alookup (writeFeatures c fs).1.valuecache p = some i := by
  induction fs generalizing c with
  | nil => simpa [writeFeatures] using h
  | cons f rest ih =>
    simp only [writeFeatures]
    exact ih (writeProps_valuecache_mono f.properties h)

theorem writeFeatures_inv {c : Ctx} (hc : c.Inv) (fs : List Feature) :
    (writeFeatures c fs).1.Inv := by
  induction fs generalizing c with
  | nil => simpa [writeFeatures] using hc
  | cons f rest ih =>
    simp only [writeFeatures]
    exact ih (writeProps_inv hc f.properties)

theorem writeFeatures_tags {c : Ctx} (fs : List Feature) :
    ∀ pr ∈ (writeFeatures c fs).2, ∀ t ∈ pr.2,
      alookup (writeFeatures c fs).1.keycache t.1.1 = some t.2.1 ∧
      alookup (writeFeatures c fs).1.valuecache (valueKey t.1.2) = some t.2.2 := by
  induction fs generalizing c with
  | nil => simp [writeFeatures]
  | cons f rest ih =>
    intro pr hpr t ht
    simp only [writeFeatures, List.mem_cons] at hpr
    rcases hpr with rfl | hpr
    · rcases writeProps_tags (c := c) f.properties t ht with ⟨hk, hv⟩
      constructor
      · simp only [writeFeatures]
        exact writeFeatures_keycache_mono rest hk
      · simp only [writeFeatures]
        exact writeFeatures_valuecache_mono rest hv
    · simpa [writeFeatures] using ih (c := (writeProps c f.properties).1) pr hpr t ht

theorem runLayer_fst (fs : List Feature) :
    (runLayer fs).1 = (writeFeatures Ctx.empty fs).1 := rfl

theorem runLayer_inv (fs : List Feature) : (runLayer fs).1.Inv := by
  rw [runLayer_fst]
  exact writeFeatures_inv inv_empty fs

theorem runLayer_tags (fs : List Feature) :
    ∀ t ∈ (runLayer fs).2,
      alookup (runLayer fs).1.keycache t.1.1 = some t.2.1 ∧
      alookup (runLayer fs).1.valuecache (valueKey t.1.2) = some t.2.2 := by
  intro t ht
  simp only [runLayer, List.mem_flatten, List.mem_map] at ht
  rcases ht with ⟨l, ⟨pr, hpr, hl⟩, htl⟩
  subst hl
  rw [runLayer_fst]
  exact writeFeatures_tags fs pr hpr t htl

/-- C4 — **Interning**: within one encoded layer, keys are interned by
exact string equality — two emitted properties sharing a key (from the
same or different features of the layer) reference the same key index,
and that key occurs exactly once in the layer's key table — and values
are interned by the `(type, value)` pair: an emitted value index always
points at the emitting property's value in the value table, and two
emitted value indices are equal exactly when the values are equal — so
the number `1` and the string `"1"` occupy distinct entries. -/
theorem layer_interning (fs : List Feature) (t1 t2 : TagRec)
    (h1 : t1 ∈ (runLayer fs).2) (h2 : t2 ∈ (runLayer fs).2) :
    (runLayer fs).1.keys.Nodup ∧
    (t1.1.1 = t2.1.1 → t1.2.1 = t2.2.1 ∧ (runLayer fs).1.keys.count t1.1.1 = 1) ∧
    (runLayer fs).1.values[t1.2.2]? = some t1.1.2 ∧
    (t1.2.2 = t2.2.2 ↔ t1.1.2 = t2.1.2) := by
  obtain ⟨hnd, hks, _, hvs⟩ := runLayer_inv fs
  rcases runLayer_tags fs t1 h1 with ⟨hk1, hv1⟩
  rcases runLayer_tags fs t2 h2 with ⟨hk2, hv2⟩
  have hval1 : (runLayer fs).1.values[t1.2.2]? = some t1.1.2 := (hvs _ _ hv1).1
  have hval2 : (runLayer fs).1.values[t2.2.2]? = some t2.1.2 := (hvs _ _ hv2).1
  refine ⟨hnd, ?_, hval1, ?_⟩
  · intro hkey
    have hk1b : alookup (runLayer fs).1.keycache t2.1.1 = some t1.2.1 := by
      rw [← hkey]
      exact hk1
    rw [hk1b] at hk2
    have hi : t1.2.1 = t2.2.1 := by
      injection hk2
    have hmem : t1.1.1 ∈ (runLayer fs).1.keys :=
      List.getElem?_mem (hks _ _ hk1)
    exact ⟨hi, List.count_eq_one_of_mem hnd hmem⟩
  · constructor
    · intro hj
      rw [hj] at hval1
      rw [hval1] at hval2
      exact Option.some.inj hval2
    · intro hv
      rw [hv] at hv1
      rw [hv1] at hv2
      exact Option.some.inj hv2


/-- Two features sharing the key `"shared"`, one with the number `1` and
one with the string `"1"`, for the interning witness. -/
def demoFeatures : List Feature :=
  [⟨1, [("shared", some (.num 1))], [[(0, 0)]]⟩,
    ⟨1, [("shared", some (.str "1"))], [[(1, 1)]]⟩]

/-- Witness for `layer_interning` at `demoFeatures`: the shared key is
interned once (both features reference index 0), and the number `1` and
the string `"1"` land at the distinct value indices 0 and 1. -/
theorem layer_interning_witness :
    (runLayer demoFeatures).1.keys.count "shared" = 1 ∧
    (runLayer demoFeatures).1.values[0]? = some (PropValue.num 1) ∧
    ((0 : Nat) = 1 ↔ PropValue.num 1 = PropValue.str "1") := by
  have h := layer_interning demoFeatures (("shared", PropValue.num 1), 0, 0)
    (("shared", PropValue.str "1"), 0, 1) (by decide) (by decide)
  exact ⟨(h.2.1 rfl).2, h.2.2.1, h.2.2.2⟩


/-! ## `src/pmtiles_adapter.js` — metadata normalization (C3) -/

/-- The header fields `getPMtilesInfo` consumes, as the external pmtiles
library provides them: plain numbers.  An absent center zoom appears as
the falsy `0` (the source tests `if (header.centerZoom)`). -/
structure PMHeader where
  maxZoom : Nat
  minLon : ℚ
  minLat : ℚ
  maxLon : ℚ
  maxLat : ℚ
  centerLon : ℚ
  centerLat : ℚ
  centerZoom : ℚ

/-- The `bounds` metadata derived by `getPMtilesInfo`: the header bounds
when all four are truthy (non-zero), else the fixed Web-Mercator default. -/
def pmtilesBounds (h : PMHeader) : ℚ × ℚ × ℚ × ℚ :=
  if h.minLon ≠ 0 ∧ h.minLat ≠ 0 ∧ h.maxLon ≠ 0 ∧ h.maxLat ≠ 0 then
    (h.minLon, h.minLat, h.maxLon, h.maxLat)
  else
    (-180, -85.05112877980659, 180, 85.0511287798066)

/-- The `center` metadata derived by `getPMtilesInfo`: the header center
when a center zoom is present (truthy), else the header center longitude
and latitude with zoom `parseInt(metadata['maxzoom']) / 2` — `parseInt`
is the identity on the integral zoom the header carries, and `/` is plain
(non-integer) division. -/
def pmtilesCenter (h : PMHeader) : ℚ × ℚ × ℚ :=
  if h.centerZoom ≠ 0 then (h.centerLon, h.centerLat, h.centerZoom)
  else (h.centerLon, h.centerLat, (h.maxZoom : ℚ) / 2)

/-- A header with `maxZoom = 7` and no center zoom. -/
def hdr7 : PMHeader := ⟨7, -10, -10, 10, 10, 0, 0, 0⟩

/-- C3, counterexample — for a header with odd `maxZoom = 7` and no
center-zoom value, the derived center zoom is `7 / 2 = 3.5`, not the
integer `floor(7 / 2) = 3`: the source divides without flooring. -/
theorem center_zoom_counterexample :
    (pmtilesCenter hdr7).2.2 = 7 / 2 ∧
    (pmtilesCenter hdr7).2.2 ≠ ((hdr7.maxZoom / 2 : Nat) : ℚ) := by
  constructor
  · norm_num [pmtilesCenter, hdr7]
  · norm_num [pmtilesCenter, hdr7]

/-- C3, amended — for every header without a center-zoom value the derived
center has zoom component `maxzoom / 2` under exact (rational) division:
half-integral, not an integer, whenever `maxzoom` is odd. -/
theorem center_zoom_amended (h : PMHeader) (hz : h.centerZoom = 0) :
    pmtilesCenter h = (h.centerLon, h.centerLat, (h.maxZoom : ℚ) / 2) := by
  simp [pmtilesCenter, hz]

/-- Witness for `center_zoom_amended` at `hdr7`. -/
theorem center_zoom_amended_witness :
    pmtilesCenter hdr7 = (hdr7.centerLon, hdr7.centerLat, (hdr7.maxZoom : ℚ) / 2) :=
  center_zoom_amended hdr7 rfl

/-! ## Torrent byte-range reconstruction (C1)

Two revisions of `PMTilesWebTorrentSource.getBytes` exist in the sources:
the modulo-based one in `src/pmtiles_adapter.js` (chunk end from
`(offset+length-1) % pieceSize` with a special case at 0) and the
min-based one in the sibling revision (bytes-to-copy clamped with
`Math.min`).  Both are embedded.  The content is a byte list; piece `i`
of the torrent is the slice `C[i*P : (i+1)*P]`. -/

/-- Piece `i` of content `C` under piece size `P` (final piece may be
short). -/
def pieceOf (C : List Nat) (P i : Nat) : List Nat := (C.drop (i * P)).take P

/-- JavaScript `buffer.slice(start, end)` (clamped half-open range). -/
def jsSlice (l : List Nat) (s e : Nat) : List Nat := (l.take e).drop s

/-- One loop iteration of the modulo-based `getBytes`: slice of piece `i`
from `chunkOffset` (the in-piece start for the first piece, else 0) up to
`chunkLength` — for the last piece `(offset+length-1) % P + 1`, except
that a remainder of 0 selects the whole piece. -/
def moduloChunk (C : List Nat) (P offset length sp ep i : Nat) : List Nat :=
  let piece := pieceOf C P i
  let chunkOffset := if i = sp then offset % P else 0
  let chunkLength :=
    if i = ep then
      (if (offset + length - 1) % P = 0 then piece.length else (offset + length - 1) % P + 1)
    else piece.length
  jsSlice piece chunkOffset chunkLength

/-- `getBytes` of `src/pmtiles_adapter.js`: chunks of the pieces from
`floor(offset/P)` to `floor((offset+length-1)/P)` are written in order
into a zero-initialized buffer of `length` bytes via `Uint8Array.set`,
which throws a `RangeError` when a chunk overruns the buffer. -/
def torrentGetBytesModulo (C : List Nat) (P offset length : Nat) :
    Except String (List Nat) :=
  let sp := offset / P
  let ep := (offset + length - 1) / P
  let written :=
    ((List.range (ep + 1 - sp)).map fun k => moduloChunk C P offset length sp ep (sp + k)).flatten
  if length < written.length then Except.error "RangeError"
  else Except.ok (written ++ List.replicate (length - written.length) 0)

/-- One loop iteration of the min-based `getBytes` of the sibling
revision: `bytesToCopy = piece.length - chunkOffset`, clamped on the last
piece to the bytes still needed, `offset + length - (i*P + chunkOffset)`. -/
def minChunk (C : List Nat) (P offset length sp ep i : Nat) : List Nat :=
  let piece := pieceOf C P i
  let chunkOffset := if i = sp then offset % P else 0
  let b0 := piece.length - chunkOffset
  let bytesToCopy :=
    if i = ep then min b0 (offset + length - (i * P + chunkOffset)) else b0
  (piece.drop chunkOffset).take bytesToCopy

/-- `getBytes` of the sibling revision (`src/unnamed/part_000`): chunk
bytes are copied element-wise into `Buffer.alloc(length)` (writes past the
end of a Node buffer are ignored; unwritten positions stay zero). -/
def torrentGetBytesMin (C : List Nat) (P offset length : Nat) : List Nat :=
  let sp := offset / P
  let ep := (offset + length - 1) / P
  let written :=
    ((List.range (ep + 1 - sp)).map fun k => minChunk C P offset length sp ep (sp + k)).flatten
  written.take length ++ List.replicate (length - written.length) 0

/-- Content of 8 bytes with distinct values, piece size 4, for the C1
failing input. -/
def demoContent : List Nat := [10, 11, 12, 13, 14, 15, 16, 17]

/-- C1 — failing input for the modulo-based `getBytes`: with `P = 4`,
`offset = 0`, `length = 5` the last requested byte falls at in-piece
index 0 (`(offset+length-1) % P = 0`), so the special case takes the whole
second piece; 4 + 4 = 8 bytes are pushed into the 5-byte output buffer and
`Uint8Array.set` throws a `RangeError` instead of returning
`C[0:5]`.  The min-based sibling revision returns exactly `C[0:5]` on the
same input. -/
theorem torrent_getBytes_failing :
    torrentGetBytesModulo demoContent 4 0 5 = Except.error "RangeError" ∧
    torrentGetBytesModulo demoContent 4 0 5 ≠ Except.ok (demoContent.take 5) ∧
    torrentGetBytesMin demoContent 4 0 5 = demoContent.take 5 := by
  have h1 : torrentGetBytesModulo demoContent 4 0 5 = Except.error "RangeError" := by rfl
  refine ⟨h1, ?_, by decide⟩
  rw [h1]
  exact fun hcontra => Except.noConfusion hcontra


/-! ## `src/terrain.js` — terrain pipeline (C7–C10) -/

/-- `terrainrgb2height`: terrarium decoding for the exact tag
`'terrarium'`, otherwise (any other tag, or the `'mapbox'` default) the
mapbox formula.  The literal `0.1` is the exact rational `1/10` here; the
claims concern which formula is selected, not double rounding. -/
def terrainrgb2height (r g b : ℚ) (encoding : String := "mapbox") : ℚ :=
  if encoding = "terrarium" then r * 256 + g + b - 32768
  else -10000 + (r * 256 * 256 + g * 256 + b) * 0.1

/-- C10 — `terrainrgb2height` is total over encoding tags: every argument
other than the exact string `'terrarium'` (including misspelled tags and
the `'mapbox'` default used when the argument is omitted) selects the
mapbox formula `-10000 + (r*65536 + g*256 + b) * 0.1`, and no
encoding-not-allowed error exists (the function is total by
construction); only `'terrarium'` selects `r*256 + g + b - 32768`. -/
theorem terrainrgb2height_total (r g b : ℚ) (enc : String) (h : enc ≠ "terrarium") :
    terrainrgb2height r g b enc = -10000 + (r * 65536 + g * 256 + b) * 0.1 ∧
    terrainrgb2height r g b = -10000 + (r * 65536 + g * 256 + b) * 0.1 ∧
    terrainrgb2height r g b "terrarium" = r * 256 + g + b - 32768 := by
  refine ⟨?_, ?_, ?_⟩
  · simp only [terrainrgb2height, if_neg h]
    ring
  · simp only [terrainrgb2height]
    rw [if_neg (by decide)]
    ring
  · simp [terrainrgb2height]

/-- Witness for `terrainrgb2height_total` at a misspelled tag. -/
theorem terrainrgb2height_total_witness :
    terrainrgb2height 1 2 3 "terarrium" = -10000 + ((1 : ℚ) * 65536 + 2 * 256 + 3) * 0.1 ∧
    terrainrgb2height 1 2 3 = -10000 + ((1 : ℚ) * 65536 + 2 * 256 + 3) * 0.1 ∧
    terrainrgb2height 1 2 3 "terrarium" = (1 : ℚ) * 256 + 2 + 3 - 32768 :=
  terrainrgb2height_total 1 2 3 "terarrium" (by decide)

/-- GeoJSON coordinates as `transformCoords` traverses them: a numeric
pair `[x, y]`, or an array of nested coordinates. -/
inductive CoordTree where
  | pt (x y : ℚ)
  | arr (cs : List CoordTree)

/-- `transformCoords` from `src/terrain.js` (argument order as in the
source: coords last here so the recursion is structural): a numeric pair
is linearly mapped from the source bounding box into `[0, extent]` and
clipped with `Math.min(Math.max(·, 0), extent)`; arrays recurse. -/
def transformCoords (extent sminX sminY smaxX smaxY : ℚ) : CoordTree → CoordTree
  | .pt x y =>
    let scaledX := (x - sminX) / (smaxX - sminX) * extent
    let scaledY := (y - sminY) / (smaxY - sminY) * extent
    .pt (min (max scaledX 0) extent) (min (max scaledY 0) extent)
  | .arr cs => .arr (cs.attach.map fun c => transformCoords extent sminX sminY smaxX smaxY c.1)
decreasing_by
  simp_wf
  have h := List.sizeOf_lt_of_mem c.2
  omega

/-- C9 — clipping invariant of the contour projection: for every numeric
coordinate pair and every `extent ≥ 0` (and any source bounding box), both
components of the projected pair lie in the closed interval
`[0, extent]`. -/
theorem transformCoords_clipped (extent sminX sminY smaxX smaxY x y : ℚ)
    (he : 0 ≤ extent) :
    ∃ px py, transformCoords extent sminX sminY smaxX smaxY (.pt x y) = .pt px py ∧
      0 ≤ px ∧ px ≤ extent ∧ 0 ≤ py ∧ py ≤ extent := by
  have heq : transformCoords extent sminX sminY smaxX smaxY (.pt x y) =
      .pt (min (max ((x - sminX) / (smaxX - sminX) * extent) 0) extent)
        (min (max ((y - sminY) / (smaxY - sminY) * extent) 0) extent) := by
    simp [transformCoords]
  exact ⟨_, _, heq, le_min (le_max_right _ 0) he, min_le_right _ extent,
    le_min (le_max_right _ 0) he, min_le_right _ extent⟩

/-- Witness for `transformCoords_clipped` with extent 4096 and a point far
outside the source box. -/
theorem transformCoords_clipped_witness :
    ∃ px py, transformCoords 4096 0 0 1 1 (.pt 50 (-3)) = .pt px py ∧
      0 ≤ px ∧ px ≤ 4096 ∧ 0 ≤ py ∧ py ≤ 4096 :=
  transformCoords_clipped 4096 0 0 1 1 50 (-3) (by norm_num)


/-- A JavaScript numeric read result: a number, `NaN`, or `undefined`
(an out-of-range array element). -/
inductive JSNum where
  | nan
  | jsUndefined
  | num (q : ℚ)
deriving DecidableEq

/-- A decoded neighbor tile: image dimensions and its height values.  The
per-tile closure in `combineTiles` reads `heightValues[y * width + x]`;
an out-of-range index yields `undefined`. -/
structure SubTile where
  width : Nat
  height : Nat
  heightValues : List ℚ

/-- The per-tile `get` closure. -/
def SubTile.hvget (t : SubTile) (x y : Int) : JSNum :=
  let idx := y * (t.width : Int) + x
  if 0 ≤ idx then
    match t.heightValues[idx.toNat]? with
    | some q => .num q
    | none => .jsUndefined
  else .jsUndefined

/-- The outcome of the fetch/decode chain for one neighbor in
`combineTiles`: each failure mode (`fetchTileData` throwing, null data,
`getImageData` throwing, `extractHeightValues` throwing) is caught and
pushes `null`; success pushes the decoded tile. -/
inductive Outcome where
  | fetchError
  | fetchNull
  | imageError
  | extractError
  | ok (t : SubTile)

/-- The neighbor slot pushed for an outcome (`null` on any failure). -/
def decodeSlot : Outcome → Option SubTile
  | .ok t => some t
  | _ => none

/-- The combined wrap-around grid returned by `combineTiles`: dimensions
of the center tile and the 9 neighbor slots in the loop's push order
(`dy` outer from -1 to 1, `dx` inner from -1 to 1). -/
structure Combined where
  width : Nat
  height : Nat
  neighbors : List (Option SubTile)

/-- The wrap-around `get` of the combined grid: an out-of-range axis is
wrapped by the center tile's width/height and the compass-direction slot
selected (`gridIdx` row contribution 0/3/6, column contribution 0/1/2); a
falsy slot yields `NaN`. -/
def Combined.cget (g : Combined) (x y : Int) : JSNum :=
  let py : Int × Nat :=
    if y < 0 then (y + g.height, 0)
    else if y < (g.height : Int) then (y, 3)
    else (y - g.height, 6)
  let px : Int × Nat :=
    if x < 0 then (x + g.width, 0)
    else if x < (g.width : Int) then (x, 1)
    else (x - g.width, 2)
  match g.neighbors[py.2 + px.2]? with
  | some (some t) => t.hvget px.1 py.1
  | _ => .nan

/-- `combineTiles` from `src/terrain.js`.  The 9 neighbors are fetched and
decoded independently — modelled by the outcome function of `(dx, dy)` —
and pushed in loop order; the result is `undefined` exactly when the
center slot `neighbors[4]` is falsy, and otherwise the wrap-around grid
sized by the center tile. -/
def combineTiles (outcome : Int → Int → Outcome) : Option Combined :=
  let neighbors : List (Option SubTile) :=
    ([-1, 0, 1] : List Int).flatMap fun dy =>
      ([-1, 0, 1] : List Int).map fun dx => decodeSlot (outcome dx dy)
  match neighbors[4]? with
  | some (some main) => some ⟨main.width, main.height, neighbors⟩
  | _ => none

/-- The 9 neighbor slots in push order. -/
def nbrList (outcome : Int → Int → Outcome) : List (Option SubTile) :=
  [decodeSlot (outcome (-1) (-1)), decodeSlot (outcome 0 (-1)), decodeSlot (outcome 1 (-1)),
    decodeSlot (outcome (-1) 0), decodeSlot (outcome 0 0), decodeSlot (outcome 1 0),
    decodeSlot (outcome (-1) 1), decodeSlot (outcome 0 1), decodeSlot (outcome 1 1)]

/-- Closed form of `combineTiles`: some-grid iff the center decoded. -/
theorem combineTiles_eq (outcome : Int → Int → Outcome) :
    combineTiles outcome =
      (decodeSlot (outcome 0 0)).map fun main =>
        Combined.mk main.width main.height (nbrList outcome) := by
  unfold combineTiles nbrList
  cases h : decodeSlot (outcome 0 0) <;> simp [h, List.flatMap]


/-- C8 — neighbor independence and error handling of `combineTiles`:
the output exists iff the center tile decoded (`neighbors[4]`); when it
exists, slot `i` of the grid is exactly the independent decode outcome of
neighbor `i` — any non-center fetch/decode failure merely leaves its slot
absent (no error is raised: the function is total by construction) — and
the grid takes its dimensions from the center tile. -/
theorem combineTiles_neighbor_independence (outcome : Int → Int → Outcome) :
    (combineTiles outcome = none ↔ decodeSlot (outcome 0 0) = none) ∧
    (∀ g, combineTiles outcome = some g →
      g.neighbors = nbrList outcome ∧
      ∀ main, decodeSlot (outcome 0 0) = some main →
        g.width = main.width ∧ g.height = main.height) := by
  rw [combineTiles_eq]
  cases h : decodeSlot (outcome 0 0) with
  | none =>
    constructor
    · simp
    · intro g hg
      simp at hg
  | some main =>
    constructor
    · simp
    · intro g hg
      simp only [Option.map_some'] at hg
      have hg2 : g = Combined.mk main.width main.height (nbrList outcome) :=
        (Option.some.inj hg).symm
      subst hg2
      refine ⟨rfl, ?_⟩
      intro m hm
      have h2 : main = m := Option.some.inj hm
      subst h2
      exact ⟨rfl, rfl⟩

/-- An outcome grid whose top-left fetch fails and whose other eight
tiles decode to a 2×2 tile. -/
def demoOutcome : Int → Int → Outcome := fun dx dy =>
  if dx = -1 ∧ dy = -1 then .fetchError else .ok ⟨2, 2, [5, 6, 7, 8]⟩

/-- An outcome grid with all nine tiles present; the top-left tile has
distinct values `[1, 2, 3, 4]`. -/
def demoOutcomeAll : Int → Int → Outcome := fun dx dy =>
  if dx = -1 ∧ dy = -1 then .ok ⟨2, 2, [1, 2, 3, 4]⟩ else .ok ⟨2, 2, [5, 6, 7, 8]⟩

/-- Witness for `combineTiles_neighbor_independence` at `demoOutcome`:
despite the top-left fetch failure the grid is produced, its slot 0 is
absent, and the other slots hold the decoded tiles. -/
theorem combineTiles_neighbor_independence_witness :
    combineTiles demoOutcome = some (Combined.mk 2 2 (nbrList demoOutcome)) ∧
    (Combined.mk 2 2 (nbrList demoOutcome)).neighbors = nbrList demoOutcome ∧
    (nbrList demoOutcome)[0]? = some none := by
  have hg : combineTiles demoOutcome = some (Combined.mk 2 2 (nbrList demoOutcome)) := by rfl
  refine ⟨hg, ((combineTiles_neighbor_independence demoOutcome).2 _ hg).1, by rfl⟩

/-- Evaluation of `Combined.cget` at `(-1, -1)`: both axes wrap to the
top-left slot (grid index 0) with in-tile coordinates
`(width - 1, height - 1)` of the center dimensions. -/
theorem cget_neg1 (g : Combined) :
    g.cget (-1) (-1) =
      (match g.neighbors[0]? with
        | some (some t) => t.hvget (-1 + g.width) (-1 + g.height)
        | _ => JSNum.nan) := by
  unfold Combined.cget
  norm_num

/-- The per-tile read at the wrapped corner, for a full 2-D value table. -/
theorem hvget_corner (t : SubTile) (hw : 0 < t.width) (hh : 0 < t.height)
    (hlen : t.heightValues.length = t.width * t.height) :
    ∃ q, t.heightValues[(t.height - 1) * t.width + (t.width - 1)]? = some q ∧
      t.hvget (-1 + t.width) (-1 + t.height) = JSNum.num q := by
  obtain ⟨h0, hh0⟩ : ∃ h0, t.height = h0 + 1 := ⟨t.height - 1, by omega⟩
  obtain ⟨w0, hw0⟩ : ∃ w0, t.width = w0 + 1 := ⟨t.width - 1, by omega⟩
  have hidx : (-1 + (t.height : Int)) * (t.width : Int) + (-1 + (t.width : Int)) =
      (((t.height - 1) * t.width + (t.width - 1) : Nat) : Int) := by
    rw [hh0, hw0]
    push_cast
    ring
  have hbound : (t.height - 1) * t.width + (t.width - 1) < t.heightValues.length := by
    rw [hlen, hh0, hw0]
    have hexp : (w0 + 1) * (h0 + 1) = h0 * (w0 + 1) + (w0 + 1) := by ring
    simp only [Nat.add_sub_cancel]
    omega
  refine ⟨t.heightValues.get ⟨(t.height - 1) * t.width + (t.width - 1), hbound⟩, ?_, ?_⟩
  · exact List.getElem?_eq_getElem hbound
  unfold SubTile.hvget
  rw [if_pos (by rw [hidx]; exact Int.natCast_nonneg _)]
  have htn : ((-1 + (t.height : Int)) * (t.width : Int) + (-1 + (t.width : Int))).toNat =
      (t.height - 1) * t.width + (t.width - 1) := by
    rw [hidx, Int.toNat_natCast]
  rw [htn, List.getElem?_eq_getElem hbound]
  rfl

/-- C7 — wrap-around at `(-1, -1)`: for a grid built over a 3×3
neighborhood of `width × height` tiles, the accessor (which is total —
no query can fail) returns the value at `(width-1, height-1)` of the
top-left neighbor when that neighbor decoded, and `NaN` when that
neighbor is absent. -/
theorem combineTiles_wraparound (outcome : Int → Int → Outcome) (g : Combined)
    (hg : combineTiles outcome = some g) (hw : 0 < g.width) (hh : 0 < g.height) :
    (decodeSlot (outcome (-1) (-1)) = none → g.cget (-1) (-1) = JSNum.nan) ∧
    (∀ tl, decodeSlot (outcome (-1) (-1)) = some tl →
      tl.width = g.width → tl.height = g.height →
      tl.heightValues.length = g.width * g.height →
      ∃ q, tl.heightValues[(g.height - 1) * g.width + (g.width - 1)]? = some q ∧
        g.cget (-1) (-1) = JSNum.num q) := by
  rw [combineTiles_eq] at hg
  cases hc : decodeSlot (outcome 0 0) with
  | none =>
    rw [hc] at hg
    simp at hg
  | some main =>
    rw [hc] at hg
    simp only [Option.map_some'] at hg
    have hg2 : g = Combined.mk main.width main.height (nbrList outcome) :=
      (Option.some.inj hg).symm
    subst hg2
    constructor
    · intro hnone
      rw [cget_neg1]
      rw [show (nbrList outcome)[0]? = some (decodeSlot (outcome (-1) (-1))) from rfl, hnone]
    · intro tl htl hew heh hlen
      rw [cget_neg1]
      rw [show (nbrList outcome)[0]? = some (decodeSlot (outcome (-1) (-1))) from rfl]
      rw [htl]
      have hw2 : 0 < tl.width := by
        rw [hew]; exact hw
      have hh2 : 0 < tl.height := by
        rw [heh]; exact hh
      have hlen2 : tl.heightValues.length = tl.width * tl.height := by
        rw [hew, heh]; exact hlen
      rcases hvget_corner tl hw2 hh2 hlen2 with ⟨q, hq1, hq2⟩
      refine ⟨q, ?_, ?_⟩
      · rw [← hew, ← heh]
        exact hq1
      · rw [← hew, ← heh]
        exact hq2

/-- Witness for `combineTiles_wraparound`: with all nine 2×2 tiles
present, `get(-1,-1)` is the bottom-right value `4` of the top-left tile;
with the top-left fetch failing, it is `NaN`. -/
theorem combineTiles_wraparound_witness :
    (Combined.mk 2 2 (nbrList demoOutcomeAll)).cget (-1) (-1) = JSNum.num 4 ∧
    (Combined.mk 2 2 (nbrList demoOutcome)).cget (-1) (-1) = JSNum.nan := by
  constructor
  · have h := (combineTiles_wraparound demoOutcomeAll
        (Combined.mk 2 2 (nbrList demoOutcomeAll)) (by rfl) (by norm_num) (by norm_num)).2
      ⟨2, 2, [1, 2, 3, 4]⟩ (by rfl) rfl rfl (by rfl)
    rcases h with ⟨q, hq1, hq2⟩
    have hq : q = 4 := by
      norm_num at hq1
      exact hq1.symm
    rw [← hq]
    exact hq2
  · exact (combineTiles_wraparound demoOutcome
      (Combined.mk 2 2 (nbrList demoOutcome)) (by rfl) (by norm_num) (by norm_num)).1 (by rfl)


theorem minChunk_single (C : List Nat) (P offset length : Nat) (hP : 0 < P)
    (hl : 0 < length) (hb : offset + length ≤ C.length)
    (hn : (offset + length - 1) / P = offset / P) :
    minChunk C P offset length (offset / P) ((offset + length - 1) / P) (offset / P) =
      (C.drop offset).take length := by
  have heq : offset / P * P + offset % P = offset := Nat.div_add_mod' offset P
  have hoP : offset % P < P := Nat.mod_lt _ hP
  have hup : offset + length - 1 < (offset + length - 1) / P * P + P := by
    have h1 := Nat.div_add_mod' (offset + length - 1) P
    have h2 : (offset + length - 1) % P < P := Nat.mod_lt _ hP
    omega
  rw [hn] at hup
  have hkey : offset % P + length ≤ P := by omega
  simp only [minChunk, pieceOf, hn, eq_self_iff_true, if_true]
  rw [List.drop_take, List.drop_drop, List.take_take]
  rw [show offset / P * P + offset % P = offset from heq]
  congr 1
  simp only [List.length_take, List.length_drop]
  omega

theorem minChunk_shift (C : List Nat) (P offset length k : Nat) (hP : 0 < P)
    (hlt : offset / P < (offset + length - 1) / P) :
    minChunk C P offset length (offset / P) ((offset + length - 1) / P)
        (offset / P + (k + 1)) =
      minChunk C P ((offset / P + 1) * P) (offset + length - (offset / P + 1) * P)
        (offset / P + 1) ((offset + length - 1) / P) ((offset / P + 1) + k) := by
  have hi : offset / P + (k + 1) = (offset / P + 1) + k := by omega
  have hmod : ((offset / P + 1) * P) % P = 0 := Nat.mul_mod_left _ _
  have hsum : (offset / P + 1) * P + (offset + length - (offset / P + 1) * P) =
      offset + length := by
    have h1 : ((offset + length - 1) / P) * P ≤ offset + length - 1 :=
      Nat.div_mul_le_self _ _
    have h3 : (offset / P + 1) * P ≤ ((offset + length - 1) / P) * P :=
      Nat.mul_le_mul_right _ hlt
    omega
  simp only [minChunk, hi, hmod, ite_self]
  rw [if_neg (by omega : ¬ ((offset / P + 1) + k = offset / P))]
  rw [hsum]

theorem minChunk_head (C : List Nat) (P offset length : Nat) (hP : 0 < P)
    (hb : offset + length ≤ C.length)
    (hlt : offset / P < (offset + length - 1) / P) :
    minChunk C P offset length (offset / P) ((offset + length - 1) / P)
        (offset / P + 0) =
      (C.drop offset).take (P - offset % P) := by
  have heq : offset / P * P + offset % P = offset := Nat.div_add_mod' offset P
  have hoP : offset % P < P := Nat.mod_lt _ hP
  have h1 : ((offset + length - 1) / P) * P ≤ offset + length - 1 :=
    Nat.div_mul_le_self _ _
  have h3 : (offset / P + 1) * P ≤ ((offset + length - 1) / P) * P :=
    Nat.mul_le_mul_right _ hlt
  have hdist : (offset / P + 1) * P = offset / P * P + P := by ring
  have hfull : offset / P * P + P ≤ C.length := by omega
  simp only [minChunk, pieceOf, Nat.add_zero, eq_self_iff_true, if_true]
  rw [if_neg (by omega : ¬ (offset / P = (offset + length - 1) / P))]
  rw [List.drop_take, List.drop_drop, List.take_take]
  rw [show offset / P * P + offset % P = offset from heq]
  congr 1
  simp only [List.length_take, List.length_drop]
  omega

theorem minChunks_correct (C : List Nat) (P : Nat) (hP : 0 < P) :
    ∀ n offset length, 0 < length → offset + length ≤ C.length →
      (offset + length - 1) / P = offset / P + n →
      ((List.range (n + 1)).map fun k =>
          minChunk C P offset length (offset / P) ((offset + length - 1) / P)
            (offset / P + k)).flatten
        = (C.drop offset).take length := by
  intro n
  induction n with
  | zero =>
    intro offset length hl hb hn
    simp only [Nat.zero_add, List.range_succ, List.range_zero, List.nil_append,
      List.map_cons, List.map_nil, List.flatten_cons, List.flatten_nil,
      List.append_nil, Nat.add_zero]
    exact minChunk_single C P offset length hP hl hb (by omega)
  | succ n ih =>
    intro offset length hl hb hn
    have hlt : offset / P < (offset + length - 1) / P := by omega
    have heq : offset / P * P + offset % P = offset := Nat.div_add_mod' offset P
    have hoP : offset % P < P := Nat.mod_lt _ hP
    have h1 : ((offset + length - 1) / P) * P ≤ offset + length - 1 :=
      Nat.div_mul_le_self _ _
    have h3 : (offset / P + 1) * P ≤ ((offset + length - 1) / P) * P :=
      Nat.mul_le_mul_right _ hlt
    have hdist : (offset / P + 1) * P = offset / P * P + P := by ring
    have hsum : (offset / P + 1) * P + (offset + length - (offset / P + 1) * P) =
        offset + length := by omega
    have hoff2 : ((offset / P + 1) * P) / P = offset / P + 1 :=
      Nat.mul_div_cancel _ hP
    have hep2 : ((offset / P + 1) * P + (offset + length - (offset / P + 1) * P) - 1) / P =
        (offset + length - 1) / P := by rw [hsum]
    rw [List.range_succ_eq_map, List.map_cons, List.map_map, List.flatten_cons]
    have hhead := minChunk_head C P offset length hP hb hlt
    have hcomp : ((fun k => minChunk C P offset length (offset / P)
          ((offset + length - 1) / P) (offset / P + k)) ∘ Nat.succ) =
        fun k => minChunk C P ((offset / P + 1) * P)
          (offset + length - (offset / P + 1) * P)
          (((offset / P + 1) * P) / P)
          ((((offset / P + 1) * P) + (offset + length - (offset / P + 1) * P) - 1) / P)
          ((((offset / P + 1) * P) / P) + k) := by
      funext k
      simp only [Function.comp, Nat.succ_eq_add_one]
      rw [hoff2, hep2]
      exact minChunk_shift C P offset length k hP hlt
    rw [hhead, hcomp]
    rw [ih ((offset / P + 1) * P) (offset + length - (offset / P + 1) * P)
      (by omega) (by omega) (by rw [hoff2, hep2]; omega)]
    have hdrop : (C.drop offset).drop (P - offset % P) =
        C.drop ((offset / P + 1) * P) := by
      rw [List.drop_drop]
      congr 1
      omega
    conv_rhs =>
      rw [show length = (P - offset % P) + (offset + length - (offset / P + 1) * P) from
        by omega]
      rw [List.take_add]
    rw [hdrop]


/-- Piece-stitching correctness of the min-based `getBytes` revision: for
every content, positive piece size, and in-bounds positive range, the
reconstructed buffer is exactly `C[offset : offset + length]`.  (This is
the spec's §8 property; it substantiates that the modulo-based revision's
failure on aligned ranges is a slip, not intent.) -/
theorem torrentGetBytesMin_correct (C : List Nat) (P offset length : Nat)
    (hP : 0 < P) (hl : 0 < length) (hb : offset + length ≤ C.length) :
    torrentGetBytesMin C P offset length = (C.drop offset).take length := by
  have hsple : offset / P ≤ (offset + length - 1) / P :=
    Nat.div_le_div_right (by omega)
  obtain ⟨n, hn⟩ : ∃ n, (offset + length - 1) / P = offset / P + n :=
    ⟨(offset + length - 1) / P - offset / P, by omega⟩
  have hflat := minChunks_correct C P hP n offset length hl hb hn
  have hlen2 : ((C.drop offset).take length).length = length := by
    simp only [List.length_take, List.length_drop]
    omega
  simp only [torrentGetBytesMin]
  rw [show (offset + length - 1) / P + 1 - offset / P = n + 1 from by omega]
  rw [hflat, hlen2, Nat.sub_self, List.replicate_zero, List.append_nil,
    List.take_take, min_self]

/-- Witness for `torrentGetBytesMin_correct` at the demo content. -/
theorem torrentGetBytesMin_correct_witness :
    torrentGetBytesMin demoContent 4 2 5 = (demoContent.drop 2).take 5 :=
  torrentGetBytesMin_correct demoContent 4 2 5 (by norm_num) (by norm_num) (by decide)

end TileserverGL
